import Mathlib

set_option maxHeartbeats 1000000

/-
  Verification of the substance rich-text document engine.

  Shallow embedding of the editing engine (src/model/Editing.js), the
  document session (src/model/DocumentSession.js), the component render
  guard (Component._render) and — where the repository only ships tests or
  callers for a module — models written from the specification
  (annotationHelpers, documentHelpers, the parent-link derivation and the
  DocumentIndex framework).  JS numbers are embedded as Int (annotation
  offsets, which may be shifted by signed amounts) or Nat (list indices);
  JS strings are lists of UTF-16 code units (List Nat) where the character
  level matters, and opaque otherwise.
-/

namespace Substance

/-! ## Annotations and the seven-case repositioning law (Editing._insertText) -/

/-- A property annotation anchored on one text property, reduced to the data
`_insertText` inspects: its two offsets, whether it is an inline node, and the
static `autoExpandRight` flag of its type. -/
structure Anno where
  startOffset : Int
  endOffset : Int
  isInlineNode : Bool
  autoExpandRight : Bool
deriving Repr, DecidableEq

/-- The annotation-repositioning dispatch of `Editing._insertText`
(src/model/Editing.js): after deleting `[startOffset, endOffset)` and
inserting `L` characters at `startOffset`, each annotation on the property is
updated by the first matching case of the seven-case chain; `none` means the
annotation is deleted (`tx.delete(anno.id)`). -/
def repositionAnno (typeover : Bool) (startOffset endOffset L : Int)
    (anno : Anno) : Option Anno :=
  let annoStart := anno.startOffset
  let annoEnd := anno.endOffset
  if annoEnd < startOffset then
    -- I: anno is before
    some anno
  else if annoStart ≥ endOffset then
    -- II: anno is after
    some { anno with
      startOffset := annoStart + (startOffset - endOffset + L),
      endOffset := annoEnd + (startOffset - endOffset + L) }
  else if (annoStart ≥ startOffset ∧ annoEnd < endOffset) ∨
      (anno.isInlineNode ∧ annoStart ≥ startOffset ∧ annoEnd ≤ endOffset) then
    -- III: anno is deleted (inline nodes are always fully covered)
    none
  else if annoStart ≥ startOffset ∧ annoEnd ≥ endOffset then
    -- IV: anno.start between and anno.end after; do not move start if typing over
    some { anno with
      startOffset := if annoStart > startOffset ∨ ¬typeover
        then annoStart + (startOffset - annoStart + L) else annoStart,
      endOffset := annoEnd + (startOffset - endOffset + L) }
  else if annoStart < startOffset ∧ annoEnd < endOffset then
    -- V: anno.start before and anno.end between (the anno gets expanded)
    some { anno with endOffset := annoEnd + (startOffset - annoEnd + L) }
  else if annoEnd = startOffset ∧ ¬anno.autoExpandRight then
    -- VI: skip
    some anno
  else if annoStart < startOffset ∧ annoEnd ≥ endOffset then
    -- VII: anno.start before and anno.end after
    if anno.isInlineNode then some anno
    else some { anno with endOffset := annoEnd + (startOffset - endOffset + L) }
  else
    some anno

/-- Annotation repositioning of `_insertText`: the `typeover` flag is derived
from the selection (`!sel.isCollapsed()`, i.e. the two offsets differ), and
every annotation of the property runs through `repositionAnno`. -/
def insertTextAnnos (startOffset endOffset L : Int) (annos : List Anno) :
    List Anno :=
  annos.filterMap
    (repositionAnno (decide (startOffset ≠ endOffset)) startOffset endOffset L)

/-! ## Collapsed-selection deletion and UTF-16 surrogate handling (Editing.delete) -/

/-- Surrogate-range test from src/model/Editing.js.  ATTENTION: the source
names the 0xD800–0xDBFF range (lead surrogates) `_isLowSurrogate`; the name is
kept verbatim, the numeric bounds are what matter. -/
def _isLowSurrogate (charCode : Nat) : Bool :=
  decide (55296 ≤ charCode ∧ charCode ≤ 56319)

/-- Surrogate-range test from src/model/Editing.js for 0xDC00–0xDFFF (trail
surrogates); the source name `_isHighSurrogate` is kept verbatim. -/
def _isHighSurrogate (charCode : Nat) : Bool :=
  decide (56320 ≤ charCode ∧ charCode ≤ 57343)

/-- Direction of a single-character deletion (backspace vs. delete). -/
inductive Direction where
  | left
  | right
deriving Repr, DecidableEq

/-- The surrogate-pair widening of `Editing.delete`: if the code unit at
`startOffset` opens a surrogate pair whose trail half sits at `endOffset`, the
deleted range is widened by one; if it is a trail half, the start moves one
position left.  Out-of-range reads (`charCodeAt` returning NaN in JS) are
embedded as 0, which fails both surrogate tests exactly as NaN does. -/
def surrogateAdjustedRange (text : List Nat) (startOffset endOffset : Nat) :
    Nat × Nat :=
  let charCode := text.getD startOffset 0
  if _isLowSurrogate charCode then
    let nextCharCode := text.getD endOffset 0
    if _isHighSurrogate nextCharCode then (startOffset, endOffset + 1)
    else (startOffset, endOffset)
  else if _isHighSurrogate charCode then (startOffset - 1, endOffset)
  else (startOffset, endOffset)

/-- Modelled from the spec: `documentHelpers.deleteTextRange` (not under src/)
removes the characters of `[start, stop)` from one text property. -/
def deleteTextRange (text : List Nat) (start stop : Nat) : List Nat :=
  text.take start ++ text.drop stop

/-- Result state of a collapsed-selection delete: the text property and the
collapsed selection offset afterwards. -/
structure DeleteResult where
  text : List Nat
  selOffset : Nat
deriving Repr, DecidableEq

/-- `Editing.delete` for a collapsed selection on a text property with no
`containerPath` (hence `needsMerge` is false and no merge is possible): at a
text boundary facing the deletion direction it returns with no mutation;
otherwise it deletes the one-code-unit range widened for surrogate pairs and
collapses the selection at the start of the deleted range. -/
def deleteCollapsedNoContainer (text : List Nat) (offset : Nat)
    (dir : Direction) : DeleteResult :=
  if (offset = 0 ∧ dir = Direction.left) ∨
      (offset = text.length ∧ dir = Direction.right) then
    ⟨text, offset⟩
  else
    let startOffset := match dir with
      | Direction.left => offset - 1
      | Direction.right => offset
    let endOffset := startOffset + 1
    let r := surrogateAdjustedRange text startOffset endOffset
    ⟨deleteTextRange text r.1 r.2, r.1⟩

/-- A list of UTF-16 code units is well formed when every lead surrogate
(0xD800–0xDBFF) is immediately followed by a trail surrogate (0xDC00–0xDFFF)
and no trail surrogate appears unpaired. -/
def wellFormedUtf16 : List Nat → Bool
  | [] => true
  | [c] => !(_isLowSurrogate c) && !(_isHighSurrogate c)
  | c :: d :: rest =>
    if _isLowSurrogate c then _isHighSurrogate d && wellFormedUtf16 rest
    else !(_isHighSurrogate c) && wellFormedUtf16 (d :: rest)

/-! ## A small text-document model for break and merge (Editing._breakTextNode,
Editing._mergeNodes) -/

/-- A text-bearing node: id, node type and the text property content. -/
structure TNode where
  id : String
  type : String
  content : List Nat
deriving Repr, DecidableEq

/-- A property annotation anchored on the text property of one node. -/
structure PAnno where
  id : String
  node : String
  startOffset : Nat
  endOffset : Nat
deriving Repr, DecidableEq

/-- Document state for structural edits: the body container (ordered node
ids), the text nodes and the property annotations. -/
structure TextDoc where
  container : List String
  nodes : List TNode
  annos : List PAnno
deriving Repr, DecidableEq

def getContent (d : TextDoc) (nodeId : String) : List Nat :=
  ((d.nodes.find? (fun n => n.id = nodeId)).map TNode.content).getD []

def getNodeType (d : TextDoc) (nodeId : String) : String :=
  ((d.nodes.find? (fun n => n.id = nodeId)).map TNode.type).getD ""

def setContent (d : TextDoc) (nodeId : String) (text : List Nat) : TextDoc :=
  { d with nodes := d.nodes.map fun n =>
      if n.id = nodeId then { n with content := text } else n }

def createNode (d : TextDoc) (n : TNode) : TextDoc :=
  { d with nodes := d.nodes ++ [n] }

/-- Modelled from the spec: `documentHelpers.insertAt` (not under src/) inserts
a node id at a position of a container property. -/
def insertAt (xs : List String) (pos : Nat) (x : String) : List String :=
  xs.take pos ++ x :: xs.drop pos

/-- Modelled from the spec: `documentHelpers.removeAt` (not under src/) removes
the entry at a position of a container property. -/
def removeAt (xs : List String) (pos : Nat) : List String :=
  xs.eraseIdx pos

def getPosition (d : TextDoc) (nodeId : String) : Nat :=
  d.container.indexOf nodeId

/-- Modelled from the spec: `annotationHelpers.transferAnnotations` (not under
src/) transfers the annotations of one text property positioned at or after
`offset` to another property, preserving relative offsets (they restart at
`newOffset`). -/
def transferAnnotations (d : TextDoc) (fromId : String) (offset : Nat)
    (toId : String) (newOffset : Nat) : TextDoc :=
  { d with annos := d.annos.map fun a =>
      if a.node = fromId ∧ offset ≤ a.startOffset then
        { a with node := toId,
                 startOffset := a.startOffset - offset + newOffset,
                 endOffset := a.endOffset - offset + newOffset }
      else a }

/-- Modelled from the spec: `documentHelpers.deepDeleteNode` (not under src/)
recursively deletes a node plus all annotations attached anywhere within it. -/
def deepDeleteNode (d : TextDoc) (nodeId : String) : TextDoc :=
  { d with nodes := d.nodes.filter (fun n => n.id ≠ nodeId),
           annos := d.annos.filter (fun a => a.node ≠ nodeId) }

/-- `Editing._breakTextNode` (src/model/Editing.js): breaking at offset 0
inserts a fresh empty node of the same type before the node; otherwise a new
node carrying the trailing text is created (taking the container's default
text type when breaking at the very end), annotations at or after the offset
are transferred to it at offset 0, the original property is truncated, and the
new node is inserted immediately after the original.  Returns the document and
the resulting collapsed property selection (node id, offset). -/
def _breakTextNode (d : TextDoc) (nodeId : String) (offset : Nat)
    (newId : String) (defaultTextType : String) : TextDoc × String × Nat :=
  let nodePos := getPosition d nodeId
  let text := getContent d nodeId
  if offset = 0 then
    let d1 := createNode d ⟨newId, getNodeType d nodeId, []⟩
    ({ d1 with container := insertAt d1.container nodePos newId }, nodeId, 0)
  else
    let newType := if offset = text.length then defaultTextType
      else getNodeType d nodeId
    let d1 := createNode d ⟨newId, newType, text.drop offset⟩
    let d2 :=
      if offset < text.length then
        setContent (transferAnnotations d1 nodeId offset newId 0) nodeId
          (text.take offset)
      else d1
    ({ d2 with container := insertAt d2.container (nodePos + 1) newId },
      newId, 0)

/-- `Editing._mergeNodes` (src/model/Editing.js) restricted to the case where
both nodes are text nodes: the source node is removed from the container, its
text is appended to the target at the target's pre-merge length, the source's
annotations are transferred to the target shifted by that length, the source
is deep-deleted and the selection collapses at the join offset.  An empty
first node is instead removed outright with the cursor placed before the
second node. -/
def _mergeTextNodes (d : TextDoc) (pos : Nat) : TextDoc × String × Nat :=
  let firstId := d.container.getD pos ""
  let secondId := d.container.getD (pos + 1) ""
  let targetText := getContent d firstId
  if targetText.isEmpty then
    let d1 := deepDeleteNode { d with container := removeAt d.container pos }
      firstId
    (d1, secondId, 0)
  else
    let targetLength := targetText.length
    let sourceText := getContent d secondId
    let d1 := { d with container := removeAt d.container (pos + 1) }
    let d2 := setContent d1 firstId (targetText ++ sourceText)
    let d3 := transferAnnotations d2 secondId 0 firstId targetLength
    let d4 := deepDeleteNode d3 secondId
    (d4, firstId, targetLength)

/-! ## Owned references and derived parent links (modelled from the spec;
the Document implementation is not under src/, only the ParentNode tests) -/

/-- Value of a node property: a single reference, an array of references, or
plain (non-reference) data. -/
inductive PropValue where
  | ref : Option String → PropValue
  | refArray : List String → PropValue
  | plain : PropValue
deriving Repr, DecidableEq

/-- A schema-described property instance: name, the schema's `owned` flag and
the current value. -/
structure OProp where
  name : String
  owned : Bool
  value : PropValue
deriving Repr, DecidableEq

structure ONode where
  id : String
  type : String
  props : List OProp
deriving Repr, DecidableEq

structure ODoc where
  nodes : List ONode
deriving Repr, DecidableEq

/-- Does this property value currently hold `childId` (as single ref or as a
slot of an array of refs)? -/
def valueRefersTo (v : PropValue) (childId : String) : Bool :=
  match v with
  | PropValue.ref (some x) => x = childId
  | PropValue.ref none => false
  | PropValue.refArray xs => xs.contains childId
  | PropValue.plain => false

/-- Does this owned property currently hold `childId`? -/
def propRefersTo (p : OProp) (childId : String) : Bool :=
  p.owned && valueRefersTo p.value childId

/-- Modelled from the spec: a node's parent is derived, not stored — it is the
node that owns a property (single ref or slot in an array-of-refs) whose
current value is this node's id. -/
def getParent (d : ODoc) (childId : String) : Option ONode :=
  d.nodes.find? (fun n => n.props.any (fun p => propRefersTo p childId))

/-- One entry of a node's xpath: `{id, type, property?, pos?}`. -/
structure XItem where
  id : String
  type : String
  property : Option String
  pos : Option Nat
deriving Repr, DecidableEq

/-- The owning property slot of `childId` inside node `n`: the property name
and, for array-of-refs, the position. -/
def owningSlot (n : ONode) (childId : String) : Option (String × Option Nat) :=
  (n.props.find? (fun p => propRefersTo p childId)).map fun p =>
    (p.name, match p.value with
      | PropValue.refArray xs => some (xs.indexOf childId)
      | _ => none)

/-- Modelled from the spec: the xpath of a node is the chain of
`{id, type, property?, pos?}` entries from the document root down to the node;
it is recomputed from the derived parent links (fuel bounds the ancestor
chain). -/
def getXpathAux (d : ODoc) (nodeId ty : String) : Nat → List XItem
  | 0 => [⟨nodeId, ty, none, none⟩]
  | fuel + 1 =>
    match getParent d nodeId with
    | none => [⟨nodeId, ty, none, none⟩]
    | some parent =>
      match owningSlot parent nodeId with
      | none => [⟨nodeId, ty, none, none⟩]
      | some (propName, pos) =>
        getXpathAux d parent.id parent.type fuel ++
          [⟨nodeId, ty, some propName, pos⟩]

def getXpath (d : ODoc) (nodeId ty : String) : List XItem :=
  getXpathAux d nodeId ty d.nodes.length

/-- `doc.set(path, value)` restricted to one property of one node. -/
def setProp (d : ODoc) (nodeId propName : String) (v : PropValue) : ODoc :=
  { nodes := d.nodes.map fun n =>
      if n.id = nodeId then
        { n with props := n.props.map fun p =>
            if p.name = propName then { p with value := v } else p }
      else n }

/-! ## fuseAnnos (modelled from the spec; annotationHelpers is not under
src/, only its tests and the AnnotationCommand caller) -/

/-- An annotation as seen by fuse: id, type and its range on one property. -/
structure FAnno where
  id : String
  type : String
  startOffset : Nat
  endOffset : Nat
deriving Repr, DecidableEq

/-- The survivor of a fuse: the earliest-starting annotation, first in input
order on equal starts. -/
def pickSurvivor (a : FAnno) (rest : List FAnno) : FAnno :=
  rest.foldl (fun best x => if x.startOffset < best.startOffset then x else best) a

/-- The latest end offset among the fused annotations. -/
def latestEnd (a : FAnno) (rest : List FAnno) : Nat :=
  rest.foldl (fun m x => max m x.endOffset) a.endOffset

/-- Modelled from the spec: `annotationHelpers.fuseAnnos(doc, annos)`
(not under src/) — given at least two same-type annotations (that all
intersect or touch the selection), collapses them into the earliest-starting
one, extending its end to the latest end among them, and deletes the rest;
on equal starts the first in input order survives.  Returns the document's
annotation list afterwards, or none when a precondition fails. -/
def fuseAnnos (doc : List FAnno) (annos : List FAnno) :
    Option (List FAnno) :=
  match annos with
  | [] => none
  | a :: rest =>
    if rest.isEmpty then none
    else if !(rest.all (fun x => x.type = a.type)) then none
    else
      let survivor := pickSurvivor a rest
      let fused := { survivor with endOffset := latestEnd a rest }
      some (doc.filterMap (fun x =>
        if x.id = survivor.id then some fused
        else if (a :: rest).any (fun y => y.id = x.id) then none
        else some x))

/-! ## DocumentIndex callbacks (modelled from the spec; only the tests are
under src/) -/

/-- A document node as seen by an index. -/
structure INode where
  id : String
  kind : String
deriving Repr, DecidableEq

/-- The observable callback record of one index: which create/delete calls and
which update calls (node, path, new value, old value) it received, in order. -/
structure IndexState where
  createCalls : List String
  deleteCalls : List String
  updateCalls : List (String × List String × String × String)
deriving Repr, DecidableEq

def emptyIndex : IndexState := ⟨[], [], []⟩

/-- Modelled from the spec: on attach, the index is warmed by calling `create`
for every currently-matching node exactly once, in document-node enumeration
order. -/
def warmUp (nodes : List INode) (select : INode → Bool) : IndexState :=
  { emptyIndex with createCalls := (nodes.filter select).map INode.id }

/-- Modelled from the spec: a create mutation on a matching node triggers
exactly one `create` callback. -/
def indexOnCreate (st : IndexState) (select : INode → Bool) (n : INode) :
    IndexState :=
  if select n then { st with createCalls := st.createCalls ++ [n.id] } else st

/-- Modelled from the spec: a delete mutation on a matching node triggers
exactly one `delete` callback. -/
def indexOnDelete (st : IndexState) (select : INode → Bool) (n : INode) :
    IndexState :=
  if select n then { st with deleteCalls := st.deleteCalls ++ [n.id] } else st

/-- Modelled from the spec: a set/update mutation on a matching node triggers
exactly one `update` callback carrying the node, the mutated path, the new
value and the old value. -/
def indexOnUpdate (st : IndexState) (select : INode → Bool) (n : INode)
    (path : List String) (newVal oldVal : String) : IndexState :=
  if select n then
    { st with updateCalls := st.updateCalls ++ [(n.id, path, newVal, oldVal)] }
  else st

/-! ## DocumentSession history (src/model/DocumentSession.js) -/

/-- A DocumentChange reduced to what the session inspects: its op list (ops
are opaque here) and free-form info. -/
structure DocChange where
  ops : List String
  info : String
deriving Repr, DecidableEq

/-- Session state: the history and the record of changes delivered to
listeners, in order. -/
structure SessionState where
  history : List DocChange
  notified : List DocChange
deriving Repr, DecidableEq

/-- `DocumentSession._onDocumentChange`: a document:changed event appends the
change to the history only when it carries at least one op. -/
def _onDocumentChange (s : SessionState) (change : DocChange) : SessionState :=
  if change.ops.length > 0 then { s with history := s.history ++ [change] }
  else s

/-- `DocumentSession._commitChange` / `_applyChange`: applying the change
emits document:changed (which feeds `_onDocumentChange` and hence the
history), then the change is delivered to the listeners exactly once. -/
def _commitChange (s : SessionState) (change : DocChange) : SessionState :=
  let s1 := _onDocumentChange s change
  { s1 with notified := s1.notified ++ [change] }

def commitAll (s : SessionState) (changes : List DocChange) : SessionState :=
  changes.foldl _commitChange s

/-! ## Component render reentrancy guard (Component._render) -/

/-- Outcome of one `_render` call: the error surfaced (if any), the state of
the `__isRendering__` flag afterwards, and whether the rendering engine was
actually invoked. -/
structure RenderOutcome where
  error : Option String
  isRenderingAfter : Bool
  engineInvoked : Bool
deriving Repr, DecidableEq

/-- `Component._render`: a reentrant call fails fast before touching the
engine; otherwise the busy flag is set, the engine runs (its behaviour is the
`engineResult` parameter), and the flag is deleted again in a finally block —
also when the engine throws. -/
def _render (isRendering : Bool) (engineResult : Except String Unit) :
    RenderOutcome :=
  if isRendering then
    ⟨some "Component is rendering already.", isRendering, false⟩
  else
    match engineResult with
    | Except.ok _ => ⟨none, false, true⟩
    | Except.error e => ⟨some e, false, true⟩

/-- One collapsed deletion step at tentative start offset `s` (range
`[s, s+1)` before surrogate adjustment): the core of
`deleteCollapsedNoContainer` past the boundary guard. -/
def adjDelete (t : List Nat) (s : Nat) : List Nat :=
  let r := surrogateAdjustedRange t s (s + 1)
  deleteTextRange t r.1 r.2

/-! ## Theorems -/

theorem low_not_high (c : Nat) (h : _isLowSurrogate c = true) :
    _isHighSurrogate c = false := by
  simp only [_isLowSurrogate, decide_eq_true_eq] at h
  simp only [_isHighSurrogate, decide_eq_false_iff_not]
  omega

theorem high_not_low (c : Nat) (h : _isHighSurrogate c = true) :
    _isLowSurrogate c = false := by
  simp only [_isHighSurrogate, decide_eq_true_eq] at h
  simp only [_isLowSurrogate, decide_eq_false_iff_not]
  omega

theorem wf_cons_regular (c : Nat) (rest : List Nat)
    (h1 : _isLowSurrogate c = false) (h2 : _isHighSurrogate c = false) :
    wellFormedUtf16 (c :: rest) = wellFormedUtf16 rest := by
  cases rest with
  | nil => simp [wellFormedUtf16, h1, h2]
  | cons d rest2 => simp [wellFormedUtf16, h1, h2]

theorem wf_pair (hi lo : Nat) (rest : List Nat)
    (h1 : _isLowSurrogate hi = true) :
    wellFormedUtf16 (hi :: lo :: rest) =
      (_isHighSurrogate lo && wellFormedUtf16 rest) := by
  simp [wellFormedUtf16, h1]

theorem wf_head_not_high (t : List Nat) (h : wellFormedUtf16 t = true) :
    _isHighSurrogate (t.getD 0 0) = false := by
  cases t with
  | nil => rfl
  | cons c rest =>
    cases rest with
    | nil =>
      simp only [wellFormedUtf16, Bool.and_eq_true, Bool.not_eq_true'] at h
      simpa using h.2
    | cons d rest2 =>
      simp only [wellFormedUtf16] at h
      by_cases hc : _isLowSurrogate c = true
      · simpa using low_not_high c hc
      · rw [if_neg hc] at h
        simp only [Bool.and_eq_true, Bool.not_eq_true'] at h
        simpa using h.1

theorem adjDelete_cons (c : Nat) (rest : List Nat) (k : Nat)
    (h : _isHighSurrogate (rest.getD k 0) = false ∨ 0 < k) :
    adjDelete (c :: rest) (k + 1) = c :: adjDelete rest k := by
  simp only [adjDelete, surrogateAdjustedRange, deleteTextRange,
    List.getD_cons_succ]
  by_cases hlow : _isLowSurrogate (rest.getD k 0) = true
  · rw [if_pos hlow, if_pos hlow]
    by_cases hnext : _isHighSurrogate (rest.getD (k + 1) 0) = true
    · rw [if_pos hnext, if_pos hnext]
      simp [List.take_succ_cons, List.drop_succ_cons]
    · rw [if_neg hnext, if_neg hnext]
      simp [List.take_succ_cons, List.drop_succ_cons]
  · rw [if_neg hlow, if_neg hlow]
    by_cases hhigh : _isHighSurrogate (rest.getD k 0) = true
    · rw [if_pos hhigh, if_pos hhigh]
      obtain ⟨m, rfl⟩ : ∃ m, k = m + 1 := by
        rcases h with h | h
        · rw [h] at hhigh
          exact absurd hhigh (by simp)
        · exact ⟨k - 1, by omega⟩
      simp [List.take_succ_cons, List.drop_succ_cons]
    · rw [if_neg hhigh, if_neg hhigh]
      simp [List.take_succ_cons, List.drop_succ_cons]

theorem adjDelete_wellFormed (t : List Nat) (s : Nat)
    (hwf : wellFormedUtf16 t = true) (hs : s < t.length) :
    wellFormedUtf16 (adjDelete t s) = true := by
  induction t using wellFormedUtf16.induct generalizing s with
  | case1 =>
    simp at hs
  | case2 c =>
    simp only [List.length_singleton] at hs
    have hs0 : s = 0 := by omega
    subst hs0
    simp only [wellFormedUtf16, Bool.and_eq_true, Bool.not_eq_true'] at hwf
    simp [adjDelete, surrogateAdjustedRange, deleteTextRange, hwf.1, hwf.2,
      wellFormedUtf16]
  | case3 c d rest hlow ih =>
    rw [wf_pair c d rest hlow] at hwf
    simp only [Bool.and_eq_true] at hwf
    obtain ⟨hhd, hwfrest⟩ := hwf
    cases s with
    | zero =>
      simp only [adjDelete, surrogateAdjustedRange, deleteTextRange,
        List.getD_cons_zero, List.getD_cons_succ, hlow, if_true, hhd,
        List.take_zero, List.drop_succ_cons, List.drop_zero, List.nil_append]
      simpa using hwfrest
    | succ s1 =>
      cases s1 with
      | zero =>
        simp only [adjDelete, surrogateAdjustedRange, deleteTextRange,
          List.getD_cons_succ, List.getD_cons_zero, high_not_low d hhd,
          Bool.false_eq_true, if_false, hhd, if_true, List.take_zero,
          List.drop_succ_cons, List.drop_zero, List.nil_append]
        simpa using hwfrest
      | succ k =>
        have h1 : adjDelete (c :: d :: rest) (k + 1 + 1) =
            c :: adjDelete (d :: rest) (k + 1) :=
          adjDelete_cons c (d :: rest) (k + 1) (Or.inr (by omega))
        have h2 : adjDelete (d :: rest) (k + 1) = d :: adjDelete rest k := by
          apply adjDelete_cons d rest k
          cases Nat.eq_zero_or_pos k with
          | inl hk0 =>
            subst hk0
            exact Or.inl (wf_head_not_high rest hwfrest)
          | inr hkpos => exact Or.inr hkpos
        rw [h1, h2, wf_pair c d (adjDelete rest k) hlow]
        simp only [List.length_cons] at hs
        simp [hhd, ih k hwfrest (by omega)]
  | case4 c d rest hlow ih =>
    simp only [wellFormedUtf16, if_neg hlow, Bool.and_eq_true,
      Bool.not_eq_true'] at hwf
    obtain ⟨hhc, hwfrest⟩ := hwf
    have hlc : _isLowSurrogate c = false := by
      simpa using hlow
    cases s with
    | zero =>
      simp only [adjDelete, surrogateAdjustedRange, deleteTextRange,
        List.getD_cons_zero, hlc, Bool.false_eq_true, if_false, hhc,
        List.take_zero, List.drop_succ_cons, List.drop_zero, List.nil_append]
      exact hwfrest
    | succ k =>
      have h1 : adjDelete (c :: d :: rest) (k + 1) =
          c :: adjDelete (d :: rest) k := by
        apply adjDelete_cons c (d :: rest) k
        cases Nat.eq_zero_or_pos k with
        | inl hk0 =>
          subst hk0
          exact Or.inl (wf_head_not_high (d :: rest) hwfrest)
        | inr hkpos => exact Or.inr hkpos
      rw [h1, wf_cons_regular c _ hlc hhc]
      simp only [List.length_cons] at hs
      exact ih k hwfrest (by simp; omega)

/-- C1: after a text insert of length `L` with typeover range
`[startOffset, endOffset)` (here `s`, `e`), every annotation `[a, b)` on the
property is repositioned exactly by the seven-case table of `_insertText`,
reading the rows top-down (first match wins, which is how the if-chain of the
source dispatches): I — an annotation entirely before the edit is unchanged;
II — an annotation entirely after has both ends shifted by `s - e + L`;
III — an annotation strictly inside the deleted range (or an inline node
fully covered) is deleted; IV — the start shifts by `s - a + L` unless typing
over with `a = s`, the end by `s - e + L`; V — the end shifts by `s - b + L`;
VI — an annotation ending exactly at the insertion point whose type does not
auto-expand right is unchanged (spelled with the conditions that actually
reach row VI past rows I–V); VII — the end shifts by `s - e + L` unless the
annotation is an inline node. -/
theorem insertText_repositioning_law (s e L a b : Int) (inl aer : Bool)
    (hse : s ≤ e) (hab : a ≤ b) :
    (b < s →
      repositionAnno (decide (s ≠ e)) s e L ⟨a, b, inl, aer⟩ =
        some ⟨a, b, inl, aer⟩) ∧
    (e ≤ a →
      repositionAnno (decide (s ≠ e)) s e L ⟨a, b, inl, aer⟩ =
        some ⟨a + (s - e + L), b + (s - e + L), inl, aer⟩) ∧
    (a < e → ((s ≤ a ∧ b < e) ∨ (inl = true ∧ s ≤ a ∧ b ≤ e)) →
      repositionAnno (decide (s ≠ e)) s e L ⟨a, b, inl, aer⟩ = none) ∧
    (s ≤ a → a < e → e ≤ b → ¬(inl = true ∧ b = e) →
      repositionAnno (decide (s ≠ e)) s e L ⟨a, b, inl, aer⟩ =
        some ⟨if s < e ∧ a = s then a else a + (s - a + L),
          b + (s - e + L), inl, aer⟩) ∧
    (a < s → s ≤ b → b < e →
      repositionAnno (decide (s ≠ e)) s e L ⟨a, b, inl, aer⟩ =
        some ⟨a, b + (s - b + L), inl, aer⟩) ∧
    (a < s → b = s → s = e → aer = false →
      repositionAnno (decide (s ≠ e)) s e L ⟨a, b, inl, aer⟩ =
        some ⟨a, b, inl, aer⟩) ∧
    (a < s → e ≤ b → ¬(b = s ∧ aer = false) →
      repositionAnno (decide (s ≠ e)) s e L ⟨a, b, inl, aer⟩ =
        (if inl = true then some ⟨a, b, inl, aer⟩
         else some ⟨a, b + (s - e + L), inl, aer⟩)) := by
  refine ⟨?_, ?_, ?_, ?_, ?_, ?_, ?_⟩
  · intro h
    simp only [repositionAnno]
    rw [if_pos h]
  · intro h
    simp only [repositionAnno]
    rw [if_neg (by omega), if_pos (by omega)]
  · intro h1 h2
    simp only [repositionAnno]
    have hsa : s ≤ a := by rcases h2 with ⟨h3, _⟩ | ⟨_, h3, _⟩ <;> exact h3
    rw [if_neg (by omega), if_neg (by omega), if_pos ?_]
    rcases h2 with ⟨h3, h4⟩ | ⟨h3, h4, h5⟩
    · exact Or.inl ⟨h3, h4⟩
    · exact Or.inr ⟨h3, h4, h5⟩
  · intro h1 h2 h3 h4
    have hlt : s < e := by omega
    simp only [repositionAnno]
    rw [if_neg (by omega), if_neg (by omega), if_neg ?_, if_pos ⟨h1, h3⟩]
    · simp only [decide_eq_true_eq, ne_eq, not_not]
      by_cases ha : a = s
      · have c1 : ¬(a > s ∨ s = e) := by omega
        have c2 : s < e ∧ a = s := ⟨hlt, ha⟩
        rw [if_neg c1, if_pos c2]
      · have c1 : a > s ∨ s = e := Or.inl (by omega)
        have c2 : ¬(s < e ∧ a = s) := fun h => ha h.2
        rw [if_pos c1, if_neg c2]
    · rintro (⟨_, h5⟩ | ⟨h5, _, h6⟩)
      · omega
      · exact h4 ⟨h5, by omega⟩
  · intro h1 h2 h3
    simp only [repositionAnno]
    rw [if_neg (by omega), if_neg (by omega), if_neg ?_, if_neg ?_,
      if_pos ⟨h1, h3⟩]
    · rintro ⟨h4, _⟩
      omega
    · rintro (⟨h4, _⟩ | ⟨_, h4, _⟩) <;> omega
  · intro h1 h2 h3 h4
    simp only [repositionAnno]
    rw [if_neg (by omega), if_neg (by omega), if_neg ?_, if_neg ?_,
      if_neg ?_, if_pos ⟨h2, by simp [h4]⟩]
    · rintro ⟨_, h5⟩
      omega
    · rintro ⟨h5, _⟩
      omega
    · rintro (⟨h5, _⟩ | ⟨_, h5, _⟩) <;> omega
  · intro h1 h2 h3
    simp only [repositionAnno]
    rw [if_neg (by omega), if_neg (by omega), if_neg ?_, if_neg ?_,
      if_neg ?_, if_neg ?_, if_pos ⟨h1, h2⟩]
    · rintro ⟨h4, h5⟩
      exact h3 ⟨h4, by simpa using h5⟩
    · rintro ⟨_, h4⟩
      omega
    · rintro ⟨h4, _⟩
      omega
    · rintro (⟨h4, _⟩ | ⟨_, h4, _⟩) <;> omega

theorem find?_id_map_setContent (nodes : List TNode) (nodeId : String)
    (t : List Nat) (n0 : TNode)
    (h : nodes.find? (fun n => n.id = nodeId) = some n0) :
    (nodes.map (fun n =>
        if n.id = nodeId then { n with content := t } else n)).find?
      (fun n => n.id = nodeId) = some { n0 with content := t } := by
  induction nodes with
  | nil => simp at h
  | cons n rest ih =>
    by_cases hn : n.id = nodeId
    · rw [List.find?_cons_of_pos _ (by simpa using hn)] at h
      obtain rfl : n = n0 := by simpa using h
      simp only [List.map_cons, if_pos hn]
      exact List.find?_cons_of_pos _ (by simpa using hn)
    · rw [List.find?_cons_of_neg _ (by simpa using hn)] at h
      simp only [List.map_cons, if_neg hn]
      rw [List.find?_cons_of_neg _ (by simpa using hn)]
      exact ih h

theorem find?_id_map_fresh (nodes : List TNode) (newId : String)
    (f : TNode → TNode) (hid : ∀ n, (f n).id = n.id)
    (hfresh : ∀ n ∈ nodes, n.id ≠ newId) :
    (nodes.map f).find? (fun n => n.id = newId) = none := by
  induction nodes with
  | nil => rfl
  | cons n rest ih =>
    simp only [List.map_cons]
    rw [List.find?_cons_of_neg _ ?_]
    · exact ih (fun m hm => hfresh m (List.mem_cons_of_mem n hm))
    · simp [hid n, hfresh n (List.mem_cons_self n rest)]

/-- C10: single-character delete never splits a UTF-16 surrogate pair.  For
any tentative start offset `so`: a lead surrogate at `so` followed by a trail
surrogate widens the deleted range to `[so, so+2)`, and a trail surrogate at
`so` moves the start one position left; consequently, for every well-formed
text, the text remaining after `Editing.delete` on a collapsed selection
contains no unpaired surrogate. -/
theorem delete_never_splits_surrogate_pair (text : List Nat) (offset so : Nat)
    (dir : Direction) (hwf : wellFormedUtf16 text = true)
    (hoff : offset ≤ text.length) :
    (_isLowSurrogate (text.getD so 0) = true →
      _isHighSurrogate (text.getD (so + 1) 0) = true →
      surrogateAdjustedRange text so (so + 1) = (so, so + 2)) ∧
    (_isHighSurrogate (text.getD so 0) = true →
      surrogateAdjustedRange text so (so + 1) = (so - 1, so + 1)) ∧
    wellFormedUtf16 (deleteCollapsedNoContainer text offset dir).text
      = true := by
  refine ⟨?_, ?_, ?_⟩
  · intro h1 h2
    simp only [surrogateAdjustedRange]
    rw [if_pos h1, if_pos h2]
  · intro h1
    simp only [surrogateAdjustedRange]
    rw [if_neg ?_, if_pos h1]
    intro hh
    rw [high_not_low _ h1] at hh
    exact Bool.false_ne_true hh
  · unfold deleteCollapsedNoContainer
    split
    · exact hwf
    · rename_i hguard
      simp only [not_or, not_and] at hguard
      cases dir with
      | left =>
        have hne : offset ≠ 0 := fun h => hguard.1 h rfl
        exact adjDelete_wellFormed text (offset - 1) hwf (by omega)
      | right =>
        have hne : offset ≠ text.length := fun h => hguard.2 h rfl
        exact adjDelete_wellFormed text offset hwf (by omega)

/-- C10 witness: deleting left at offset 3 of `h, U+1F60A (two units), i`
lands on the trail surrogate, the range widens to the full pair, and the
remaining text `h, i` is well formed. -/
theorem delete_never_splits_surrogate_pair_witness :
    wellFormedUtf16 [104, 55357, 56842, 105] = true ∧
    3 ≤ [104, 55357, 56842, 105].length ∧
    surrogateAdjustedRange [104, 55357, 56842, 105] 1 2 = (1, 3) ∧
    surrogateAdjustedRange [104, 55357, 56842, 105] 2 3 = (1, 3) ∧
    wellFormedUtf16
      (deleteCollapsedNoContainer [104, 55357, 56842, 105] 3
        Direction.left).text = true :=
  ⟨by decide, by decide,
    (delete_never_splits_surrogate_pair [104, 55357, 56842, 105] 3 1
      Direction.left (by decide) (by decide)).1 (by decide) (by decide),
    (delete_never_splits_surrogate_pair [104, 55357, 56842, 105] 3 2
      Direction.left (by decide) (by decide)).2.1 (by decide),
    (delete_never_splits_surrogate_pair [104, 55357, 56842, 105] 3 2
      Direction.left (by decide) (by decide)).2.2⟩

/-- C7: `Editing.delete` with a collapsed selection at a text boundary facing
the deletion direction, with no `containerPath` (hence no merge target), is an
intentional no-op: it returns without error and leaves the text and the
selection unchanged. -/
theorem delete_boundary_noop (text : List Nat) (offset : Nat) (dir : Direction)
    (h : (offset = 0 ∧ dir = Direction.left) ∨
      (offset = text.length ∧ dir = Direction.right)) :
    deleteCollapsedNoContainer text offset dir = ⟨text, offset⟩ := by
  unfold deleteCollapsedNoContainer
  rw [if_pos h]

/-- C7 witness: backspace at offset 0 of a two-character text changes
nothing. -/
theorem delete_boundary_noop_witness :
    ((0 = 0 ∧ Direction.left = Direction.left) ∨
      (0 = [104, 105].length ∧ Direction.left = Direction.right)) ∧
    deleteCollapsedNoContainer [104, 105] 0 Direction.left = ⟨[104, 105], 0⟩ :=
  ⟨Or.inl ⟨rfl, rfl⟩,
    delete_boundary_noop [104, 105] 0 Direction.left (Or.inl ⟨rfl, rfl⟩)⟩

/-- C3: breaking a text node at offset `o` with `0 < o < length` truncates the
original property to `[0, o)`, gives the new node the trailing text, transfers
every annotation on the property positioned at or after `o` to the new node
with its offsets reduced by `o` (relative offsets preserved, starting at 0 in
the new node), inserts the new node immediately after the original in the
container, and collapses the selection at offset 0 of the new node. -/
theorem breakTextNode_spec (d : TextDoc) (nodeId newId dt : String)
    (offset : Nat) (n0 : TNode)
    (hfind : d.nodes.find? (fun n => n.id = nodeId) = some n0)
    (hfresh : ∀ n ∈ d.nodes, n.id ≠ newId)
    (h0 : 0 < offset) (hlt : offset < n0.content.length) :
    getContent (_breakTextNode d nodeId offset newId dt).1 newId =
        n0.content.drop offset ∧
    getContent (_breakTextNode d nodeId offset newId dt).1 nodeId =
        n0.content.take offset ∧
    (_breakTextNode d nodeId offset newId dt).1.annos =
      d.annos.map (fun a =>
        if a.node = nodeId ∧ offset ≤ a.startOffset then
          ⟨a.id, newId, a.startOffset - offset, a.endOffset - offset⟩
        else a) ∧
    (_breakTextNode d nodeId offset newId dt).1.container =
      insertAt d.container (getPosition d nodeId + 1) newId ∧
    (_breakTextNode d nodeId offset newId dt).2 = (newId, 0) := by
  have hid0 : n0.id = nodeId := by simpa using List.find?_some hfind
  have hne : nodeId ≠ newId := by
    have h := hfresh n0 (List.mem_of_find?_eq_some hfind)
    rw [hid0] at h
    exact h
  have htext : getContent d nodeId = n0.content := by
    simp [getContent, hfind]
  have hres : _breakTextNode d nodeId offset newId dt =
      (⟨insertAt d.container (getPosition d nodeId + 1) newId,
        d.nodes.map (fun n => if n.id = nodeId
          then { n with content := n0.content.take offset } else n)
          ++ [⟨newId, getNodeType d nodeId, n0.content.drop offset⟩],
        d.annos.map (fun a =>
          if a.node = nodeId ∧ offset ≤ a.startOffset then
            ⟨a.id, newId, a.startOffset - offset, a.endOffset - offset⟩
          else a)⟩,
       newId, 0) := by
    simp only [_breakTextNode, htext]
    rw [if_neg (by omega : ¬(offset = 0)), if_pos hlt,
      if_neg (by omega : ¬(offset = n0.content.length))]
    simp only [setContent, createNode, transferAnnotations, List.map_append,
      List.map_cons, List.map_nil, Nat.add_zero]
    simp [Ne.symm hne]
  rw [hres]
  refine ⟨?_, ?_, rfl, rfl, rfl⟩
  · simp only [getContent, List.find?_append]
    rw [find?_id_map_fresh d.nodes newId _
      (fun n => by by_cases h : n.id = nodeId <;> simp [h]) hfresh]
    simp
  · simp only [getContent, List.find?_append]
    rw [find?_id_map_setContent d.nodes nodeId (n0.content.take offset) n0
      hfind]
    simp

/-- C3 witness: splitting a ten-character paragraph at offset 4 with one
annotation `[6, 8)` moves the annotation to the new node as `[2, 4)`. -/
theorem breakTextNode_spec_witness :
    ([⟨"p1", "paragraph", [97, 98, 99, 100, 101, 102, 103, 104, 105, 106]⟩] :
        List TNode).find? (fun n => n.id = "p1") =
      some ⟨"p1", "paragraph", [97, 98, 99, 100, 101, 102, 103, 104, 105, 106]⟩ ∧
    0 < 4 ∧ 4 < 10 ∧
    getContent
      (_breakTextNode
        ⟨["p1"],
         [⟨"p1", "paragraph", [97, 98, 99, 100, 101, 102, 103, 104, 105, 106]⟩],
         [⟨"a1", "p1", 6, 8⟩]⟩ "p1" 4 "p2" "paragraph").1 "p2" =
      [101, 102, 103, 104, 105, 106] ∧
    (_breakTextNode
        ⟨["p1"],
         [⟨"p1", "paragraph", [97, 98, 99, 100, 101, 102, 103, 104, 105, 106]⟩],
         [⟨"a1", "p1", 6, 8⟩]⟩ "p1" 4 "p2" "paragraph").1.annos =
      [⟨"a1", "p2", 2, 4⟩] := by
  have h := breakTextNode_spec
    ⟨["p1"],
     [⟨"p1", "paragraph", [97, 98, 99, 100, 101, 102, 103, 104, 105, 106]⟩],
     [⟨"a1", "p1", 6, 8⟩]⟩ "p1" "p2" "paragraph" 4
    ⟨"p1", "paragraph", [97, 98, 99, 100, 101, 102, 103, 104, 105, 106]⟩
    (by decide) (by decide) (by decide) (by decide)
  refine ⟨by decide, by decide, by decide, h.1, ?_⟩
  rw [h.2.2.1]
  decide

theorem find?_id_filter_map (nodes : List TNode) (fid sid : String)
    (t : List Nat) (n0 : TNode) (hne : fid ≠ sid)
    (h : nodes.find? (fun n => n.id = fid) = some n0) :
    ((nodes.map (fun n =>
        if n.id = fid then { n with content := t } else n)).filter
      (fun n => n.id ≠ sid)).find? (fun n => n.id = fid) =
      some { n0 with content := t } := by
  induction nodes with
  | nil => simp at h
  | cons n rest ih =>
    by_cases hn : n.id = fid
    · rw [List.find?_cons_of_pos _ (by simpa using hn)] at h
      obtain rfl : n = n0 := by simpa using h
      simp only [List.map_cons, if_pos hn]
      rw [List.filter_cons_of_pos (by simp [hn, hne])]
      exact List.find?_cons_of_pos _ (by simpa using hn)
    · rw [List.find?_cons_of_neg _ (by simpa using hn)] at h
      simp only [List.map_cons, if_neg hn]
      by_cases hs : n.id = sid
      · rw [List.filter_cons_of_neg (by simp [hs])]
        exact ih h
      · rw [List.filter_cons_of_pos (by simp [hs])]
        rw [List.find?_cons_of_neg _ (by simpa using hn)]
        exact ih h

/-- C4: merging two adjacent non-empty text nodes at container positions
`pos` and `pos + 1`: the source's text is appended to the target at the
target's pre-merge length, every annotation anchored in the source property is
transferred to the target property shifted by that length, the source node is
deep-deleted (it no longer exists and no annotation is anchored on it), the
source is removed from the container, and the selection collapses at the join
offset in the target. -/
theorem mergeTextNodes_spec (d : TextDoc) (pos : Nat)
    (firstId secondId : String) (nTarget nSource : TNode)
    (hpos1 : d.container.getD pos "" = firstId)
    (hpos2 : d.container.getD (pos + 1) "" = secondId)
    (hfind1 : d.nodes.find? (fun n => n.id = firstId) = some nTarget)
    (hfind2 : d.nodes.find? (fun n => n.id = secondId) = some nSource)
    (hne : firstId ≠ secondId)
    (htne : nTarget.content ≠ []) (hsne : nSource.content ≠ []) :
    getContent (_mergeTextNodes d pos).1 firstId =
        nTarget.content ++ nSource.content ∧
    (_mergeTextNodes d pos).1.annos = d.annos.map (fun a =>
        if a.node = secondId then
          ⟨a.id, firstId, a.startOffset + nTarget.content.length,
            a.endOffset + nTarget.content.length⟩
        else a) ∧
    (_mergeTextNodes d pos).1.nodes.find? (fun n => n.id = secondId) = none ∧
    (_mergeTextNodes d pos).1.container = removeAt d.container (pos + 1) ∧
    (_mergeTextNodes d pos).2 = (firstId, nTarget.content.length) := by
  have htext1 : getContent d firstId = nTarget.content := by
    simp [getContent, hfind1]
  have htext2 : getContent d secondId = nSource.content := by
    simp [getContent, hfind2]
  have hres : _mergeTextNodes d pos =
      (⟨removeAt d.container (pos + 1),
        (d.nodes.map (fun n => if n.id = firstId
            then { n with content := nTarget.content ++ nSource.content }
            else n)).filter (fun n => n.id ≠ secondId),
        (d.annos.map (fun a =>
          if a.node = secondId then
            ⟨a.id, firstId, a.startOffset + nTarget.content.length,
              a.endOffset + nTarget.content.length⟩
          else a)).filter (fun a => a.node ≠ secondId)⟩,
       firstId, nTarget.content.length) := by
    simp only [_mergeTextNodes, hpos1, hpos2, htext1, htext2]
    rw [if_neg (by simp [htne])]
    simp only [setContent, transferAnnotations, deepDeleteNode,
      Nat.sub_zero, Nat.zero_le, and_true]
  rw [hres]
  refine ⟨?_, ?_, ?_, rfl, rfl⟩
  · simp only [getContent]
    rw [find?_id_filter_map d.nodes firstId secondId
      (nTarget.content ++ nSource.content) nTarget hne hfind1]
    simp
  · refine List.filter_eq_self.mpr ?_
    intro a ha
    obtain ⟨b, hb, rfl⟩ := List.mem_map.mp ha
    by_cases hbn : b.node = secondId
    · simp [hbn, hne]
    · simp [hbn]
  · rw [List.find?_eq_none]
    intro n hn
    have := List.of_mem_filter hn
    simpa using this

/-- C4 witness: merging `"ab"` and `"cd"` with one annotation `[0, 2)` on the
source yields `"abcd"` with the annotation at `[2, 4)` on the target, the
source deleted and the cursor at offset 2. -/
theorem mergeTextNodes_spec_witness :
    (["p1", "p2"].getD 0 "" = "p1") ∧ (["p1", "p2"].getD 1 "" = "p2") ∧
    ("p1" ≠ "p2") ∧
    getContent
      (_mergeTextNodes
        ⟨["p1", "p2"],
         [⟨"p1", "paragraph", [97, 98]⟩, ⟨"p2", "paragraph", [99, 100]⟩],
         [⟨"a1", "p2", 0, 2⟩]⟩ 0).1 "p1" = [97, 98, 99, 100] ∧
    (_mergeTextNodes
        ⟨["p1", "p2"],
         [⟨"p1", "paragraph", [97, 98]⟩, ⟨"p2", "paragraph", [99, 100]⟩],
         [⟨"a1", "p2", 0, 2⟩]⟩ 0).1.annos = [⟨"a1", "p1", 2, 4⟩] ∧
    (_mergeTextNodes
        ⟨["p1", "p2"],
         [⟨"p1", "paragraph", [97, 98]⟩, ⟨"p2", "paragraph", [99, 100]⟩],
         [⟨"a1", "p2", 0, 2⟩]⟩ 0).2 = ("p1", 2) := by
  have h := mergeTextNodes_spec
    ⟨["p1", "p2"],
     [⟨"p1", "paragraph", [97, 98]⟩, ⟨"p2", "paragraph", [99, 100]⟩],
     [⟨"a1", "p2", 0, 2⟩]⟩ 0 "p1" "p2"
    ⟨"p1", "paragraph", [97, 98]⟩ ⟨"p2", "paragraph", [99, 100]⟩
    (by decide) (by decide) (by decide) (by decide) (by decide) (by decide)
    (by decide)
  refine ⟨by decide, by decide, by decide, h.1, ?_, ?_⟩
  · rw [h.2.1]
    decide
  · rw [h.2.2.2.2]
    rfl

theorem pickSurvivor_cons (a x : FAnno) (xs : List FAnno) :
    pickSurvivor a (x :: xs) =
      pickSurvivor (if x.startOffset < a.startOffset then x else a) xs := rfl

theorem pickSurvivor_le (a : FAnno) (rest : List FAnno) :
    (pickSurvivor a rest).startOffset ≤ a.startOffset ∧
    ∀ x ∈ rest, (pickSurvivor a rest).startOffset ≤ x.startOffset := by
  induction rest generalizing a with
  | nil => exact ⟨le_refl _, by simp⟩
  | cons x xs ih =>
    rw [pickSurvivor_cons]
    by_cases hx : x.startOffset < a.startOffset
    · rw [if_pos hx]
      obtain ⟨h1, h2⟩ := ih x
      refine ⟨le_trans h1 (le_of_lt hx), ?_⟩
      intro y hy
      rcases List.mem_cons.mp hy with rfl | hy
      · exact h1
      · exact h2 y hy
    · rw [if_neg hx]
      obtain ⟨h1, h2⟩ := ih a
      refine ⟨h1, ?_⟩
      intro y hy
      rcases List.mem_cons.mp hy with rfl | hy
      · exact le_trans h1 (by omega)
      · exact h2 y hy

theorem pickSurvivor_first (a : FAnno) (rest : List FAnno) :
    (a :: rest).find?
        (fun x => x.startOffset = (pickSurvivor a rest).startOffset) =
      some (pickSurvivor a rest) := by
  induction rest generalizing a with
  | nil => simp [pickSurvivor]
  | cons x xs ih =>
    rw [pickSurvivor_cons]
    by_cases hx : x.startOffset < a.startOffset
    · rw [if_pos hx]
      have hle := (pickSurvivor_le x xs).1
      rw [List.find?_cons_of_neg _ (by simp only [decide_eq_true_eq]; omega)]
      exact ih x
    · rw [if_neg hx]
      have ha := ih a
      have hle := (pickSurvivor_le a xs).1
      by_cases heq : a.startOffset = (pickSurvivor a xs).startOffset
      · rw [List.find?_cons_of_pos _ (by simpa using heq)]
        rw [List.find?_cons_of_pos _ (by simpa using heq)] at ha
        exact ha
      · rw [List.find?_cons_of_neg _ (by simpa using heq),
          List.find?_cons_of_neg _ (by simp only [decide_eq_true_eq]; omega)]
        rw [List.find?_cons_of_neg _ (by simpa using heq)] at ha
        exact ha

theorem foldl_max_ge (init : Nat) (l : List FAnno) :
    init ≤ l.foldl (fun m x => max m x.endOffset) init ∧
    ∀ x ∈ l, x.endOffset ≤ l.foldl (fun m x => max m x.endOffset) init := by
  induction l generalizing init with
  | nil => exact ⟨le_refl _, by simp⟩
  | cons x xs ih =>
    simp only [List.foldl_cons]
    obtain ⟨h1, h2⟩ := ih (max init x.endOffset)
    refine ⟨le_trans (le_max_left _ _) h1, ?_⟩
    intro y hy
    rcases List.mem_cons.mp hy with rfl | hy
    · exact le_trans (le_max_right _ _) h1
    · exact h2 y hy

theorem foldl_max_attained (init : Nat) (l : List FAnno) :
    l.foldl (fun m x => max m x.endOffset) init = init ∨
    ∃ x ∈ l, l.foldl (fun m x => max m x.endOffset) init = x.endOffset := by
  induction l generalizing init with
  | nil => exact Or.inl rfl
  | cons x xs ih =>
    simp only [List.foldl_cons]
    rcases ih (max init x.endOffset) with h | ⟨y, hy, h⟩
    · rcases Nat.le_total init x.endOffset with hle | hle
      · exact Or.inr ⟨x, List.mem_cons_self x xs,
          by rw [h]; exact max_eq_right hle⟩
      · exact Or.inl (by rw [h]; exact max_eq_left hle)
    · exact Or.inr ⟨y, List.mem_cons_of_mem x hy, h⟩

/-- C5: fusing two or more same-type annotations collapses them into the
earliest-starting one: the survivor's start is the earliest start among them
(first in input order on equal starts, phrased through `find?`), its end is
extended to the latest end among them (an upper bound that is attained), the
fused annotation replaces the survivor in the document, and no other
annotation of the fused set exists in the document afterwards. -/
theorem fuseAnnos_spec (doc : List FAnno) (a : FAnno)
    (rest : List FAnno) (result : List FAnno)
    (hrest : rest ≠ []) (htype : ∀ x ∈ rest, x.type = a.type)
    (hres : fuseAnnos doc (a :: rest) = some result) :
    (∀ x ∈ a :: rest, (pickSurvivor a rest).startOffset ≤ x.startOffset) ∧
    ((a :: rest).find?
        (fun x => x.startOffset = (pickSurvivor a rest).startOffset) =
      some (pickSurvivor a rest)) ∧
    (∀ x ∈ a :: rest, x.endOffset ≤ latestEnd a rest) ∧
    (∃ x ∈ a :: rest, latestEnd a rest = x.endOffset) ∧
    (∀ su ∈ doc, su.id = (pickSurvivor a rest).id →
      ({ pickSurvivor a rest with endOffset := latestEnd a rest } ∈ result)) ∧
    (∀ y ∈ result, ∀ x ∈ a :: rest,
      x.id ≠ (pickSurvivor a rest).id → y.id ≠ x.id) := by
  have hsome : fuseAnnos doc (a :: rest) =
      some (doc.filterMap (fun x =>
        if x.id = (pickSurvivor a rest).id then
          some { pickSurvivor a rest with endOffset := latestEnd a rest }
        else if (a :: rest).any (fun y => y.id = x.id) then none
        else some x)) := by
    simp only [fuseAnnos]
    rw [if_neg (by simpa [List.isEmpty_iff] using hrest), if_neg (by
      simp only [Bool.not_eq_true', Bool.not_eq_false, List.all_eq_true,
        decide_eq_true_eq]
      exact htype)]
  rw [hsome] at hres
  obtain rfl := Option.some_inj.mp hres
  refine ⟨?_, pickSurvivor_first a rest, ?_, ?_, ?_, ?_⟩
  · intro x hx
    rcases List.mem_cons.mp hx with rfl | hx
    · exact (pickSurvivor_le x rest).1
    · exact (pickSurvivor_le a rest).2 x hx
  · intro x hx
    rcases List.mem_cons.mp hx with rfl | hx
    · exact (foldl_max_ge x.endOffset rest).1
    · exact (foldl_max_ge a.endOffset rest).2 x hx
  · rcases foldl_max_attained a.endOffset rest with h | ⟨x, hx, h⟩
    · exact ⟨a, List.mem_cons_self a rest, h⟩
    · exact ⟨x, List.mem_cons_of_mem a hx, h⟩
  · intro su hsu hid
    refine List.mem_filterMap.mpr ⟨su, hsu, ?_⟩
    rw [if_pos hid]
  · intro y hy x hx hxne
    obtain ⟨z, hz, hzy⟩ := List.mem_filterMap.mp hy
    by_cases hzid : z.id = (pickSurvivor a rest).id
    · rw [if_pos hzid] at hzy
      obtain rfl := Option.some_inj.mp hzy
      intro h
      apply hxne
      simpa using h.symm
    · rw [if_neg hzid] at hzy
      by_cases hany : (a :: rest).any (fun y => y.id = z.id)
      · rw [if_pos hany] at hzy
        exact absurd hzy (by simp)
      · rw [if_neg hany] at hzy
        obtain rfl := Option.some_inj.mp hzy
        intro h
        rw [List.any_eq_true] at hany
        exact hany ⟨x, hx, by simp [h.symm]⟩

theorem find?_unique {α : Type} (p : α → Bool) (l : List α) (a : α)
    (hmem : a ∈ l) (hp : p a = true)
    (huniq : ∀ x ∈ l, p x = true → x = a) :
    l.find? p = some a := by
  induction l with
  | nil => simp at hmem
  | cons x xs ih =>
    by_cases hx : p x = true
    · rw [List.find?_cons_of_pos _ hx]
      rw [huniq x (List.mem_cons_self x xs) hx]
    · rw [List.find?_cons_of_neg _ (by simp [hx])]
      rcases List.mem_cons.mp hmem with rfl | hmem2
      · exact absurd hp hx
      · exact ih hmem2
          (fun y hy hpy => huniq y (List.mem_cons_of_mem x hy) hpy)

/-- C2: owned-reference parent consistency.  When node `A` is the unique owner
of `childId` (through some owned property), the derived `getParent` yields
`A` — for any document holding both nodes, hence independently of the order in
which child and parent were created.  After `set` replaces the owning property
`P` by any value no longer holding `childId` (null single ref, cleared or
replaced owned array, or the array with the child's position deleted), the
child has no parent and its xpath reduces to its own `(id, type)` entry. -/
theorem parent_consistency (d : ODoc) (A : ONode) (childId ty P : String)
    (vNew : PropValue)
    (hmem : A ∈ d.nodes)
    (hrefs : A.props.any (fun p => propRefersTo p childId) = true)
    (huniq : ∀ n ∈ d.nodes,
      (n.props.any (fun p => propRefersTo p childId)) = true → n = A)
    (honly : ∀ n ∈ d.nodes, ∀ p ∈ n.props, propRefersTo p childId = true →
      n.id = A.id ∧ p.name = P)
    (hv : valueRefersTo vNew childId = false) :
    getParent d childId = some A ∧
    getParent (setProp d A.id P vNew) childId = none ∧
    getXpath (setProp d A.id P vNew) childId ty =
      [⟨childId, ty, none, none⟩] := by
  have h1 : getParent d childId = some A :=
    find?_unique _ d.nodes A hmem hrefs huniq
  have h2 : getParent (setProp d A.id P vNew) childId = none := by
    rw [getParent, List.find?_eq_none]
    intro n hn
    simp only [setProp] at hn
    obtain ⟨m, hm, rfl⟩ := List.mem_map.mp hn
    simp only [Bool.not_eq_true, List.any_eq_false]
    intro p hp
    by_cases hmA : m.id = A.id
    · rw [if_pos hmA] at hp
      simp only at hp
      obtain ⟨q, hq, rfl⟩ := List.mem_map.mp hp
      by_cases hqP : q.name = P
      · rw [if_pos hqP]
        simp [propRefersTo, hv]
      · rw [if_neg hqP]
        cases hqq : propRefersTo q childId with
        | false => rfl
        | true => exact absurd ((honly m hm q hq hqq).2) hqP
    · rw [if_neg hmA] at hp
      cases hqq : propRefersTo p childId with
      | false => rfl
      | true => exact absurd ((honly m hm p hp hqq).1) hmA
  refine ⟨h1, h2, ?_⟩
  rw [getXpath]
  cases (setProp d A.id P vNew).nodes.length with
  | zero => rfl
  | succ k => simp [getXpathAux, h2]

/-- C2 witness: the repository's fixture — parent `a` owning child `b` through
`foo`; `getParent` derives `a`, and after `set(["a","foo"], null)` the child
is parentless with a singleton xpath. -/
theorem parent_consistency_witness :
    getParent
        ⟨[⟨"b", "child", []⟩,
          ⟨"a", "parent", [⟨"foo", true, PropValue.ref (some "b")⟩]⟩]⟩ "b" =
      some ⟨"a", "parent", [⟨"foo", true, PropValue.ref (some "b")⟩]⟩ ∧
    getParent
        (setProp
          ⟨[⟨"b", "child", []⟩,
            ⟨"a", "parent", [⟨"foo", true, PropValue.ref (some "b")⟩]⟩]⟩
          "a" "foo" (PropValue.ref none)) "b" = none ∧
    getXpath
        (setProp
          ⟨[⟨"b", "child", []⟩,
            ⟨"a", "parent", [⟨"foo", true, PropValue.ref (some "b")⟩]⟩]⟩
          "a" "foo" (PropValue.ref none)) "b" "child" =
      [⟨"b", "child", none, none⟩] :=
  parent_consistency
    ⟨[⟨"b", "child", []⟩,
      ⟨"a", "parent", [⟨"foo", true, PropValue.ref (some "b")⟩]⟩]⟩
    ⟨"a", "parent", [⟨"foo", true, PropValue.ref (some "b")⟩]⟩
    "b" "child" "foo" (PropValue.ref none)
    (by decide) (by decide) (by decide) (by decide) (by decide)

/-- C6: index completeness.  On attach, the warm-up invokes `create` exactly
once per currently-matching node (so `create.callCount` equals the number of
matching nodes, and with unique node ids each matching node accounts for
exactly one call); afterwards a create, delete or set/update mutation on a
matching node triggers exactly one corresponding callback — `update` receiving
the node, the mutated path, the new value and the old value — and a
non-matching node triggers none. -/
theorem documentIndex_callbacks (nodes : List INode) (select : INode → Bool)
    (st : IndexState) (n : INode) (path : List String)
    (newVal oldVal : String)
    (hnodup : (nodes.map INode.id).Nodup) :
    (warmUp nodes select).createCalls.length =
      (nodes.filter select).length ∧
    (∀ m ∈ nodes, select m = true →
      (warmUp nodes select).createCalls.count m.id = 1) ∧
    (select n = true →
      indexOnCreate st select n =
        { st with createCalls := st.createCalls ++ [n.id] } ∧
      indexOnDelete st select n =
        { st with deleteCalls := st.deleteCalls ++ [n.id] } ∧
      indexOnUpdate st select n path newVal oldVal =
        { st with updateCalls :=
            st.updateCalls ++ [(n.id, path, newVal, oldVal)] }) ∧
    (select n = false →
      indexOnCreate st select n = st ∧
      indexOnDelete st select n = st ∧
      indexOnUpdate st select n path newVal oldVal = st) := by
  refine ⟨by simp [warmUp], ?_, ?_, ?_⟩
  · intro m hm hsel
    have hsub : ((nodes.filter select).map INode.id).Nodup :=
      ((List.filter_sublist nodes).map INode.id).nodup hnodup
    have hmemf : m.id ∈ (nodes.filter select).map INode.id :=
      List.mem_map.mpr ⟨m, List.mem_filter.mpr ⟨hm, hsel⟩, rfl⟩
    simpa [warmUp] using List.count_eq_one_of_mem hsub hmemf
  · intro hsel
    refine ⟨?_, ?_, ?_⟩ <;>
      simp [indexOnCreate, indexOnDelete, indexOnUpdate, hsel]
  · intro hsel
    refine ⟨?_, ?_, ?_⟩ <;>
      simp [indexOnCreate, indexOnDelete, indexOnUpdate, hsel]

/-- C6 witness: a two-node document with a select-all index warms up with two
create calls, `p1` counted once, and a set mutation on `body` records exactly
one update callback carrying node, path, new value and old value. -/
theorem documentIndex_callbacks_witness :
    ((([⟨"p1", "paragraph"⟩, ⟨"body", "container"⟩] :
        List INode).map INode.id).Nodup) ∧
    (warmUp [⟨"p1", "paragraph"⟩, ⟨"body", "container"⟩]
        (fun _ => true)).createCalls.length = 2 ∧
    (warmUp [⟨"p1", "paragraph"⟩, ⟨"body", "container"⟩]
        (fun _ => true)).createCalls.count "p1" = 1 ∧
    indexOnUpdate emptyIndex (fun _ => true) ⟨"body", "container"⟩
        ["body", "nodes"] "p1,p2,p3" "p1,p2,p3,p4" =
      { emptyIndex with updateCalls :=
          [("body", ["body", "nodes"], "p1,p2,p3", "p1,p2,p3,p4")] } := by
  have h := documentIndex_callbacks
    [⟨"p1", "paragraph"⟩, ⟨"body", "container"⟩] (fun _ => true)
    emptyIndex ⟨"body", "container"⟩ ["body", "nodes"]
    "p1,p2,p3" "p1,p2,p3,p4" (by decide)
  exact ⟨by decide, h.1.trans (by decide),
    h.2.1 ⟨"p1", "paragraph"⟩ (by decide) rfl,
    (h.2.2.1 rfl).2.2⟩

/-- C8 counterexample: committing a change whose op list is empty delivers it
to the listeners but does not append it to the history
(`_onDocumentChange` only pushes when `change.ops.length > 0`), so "every
committed transaction's DocumentChange is appended to the session history"
fails as stated at this input. -/
theorem session_empty_change_not_appended :
    (_commitChange ⟨[], []⟩ ⟨[], "node-state-update"⟩).history = [] ∧
    (_commitChange ⟨[], []⟩ ⟨[], "node-state-update"⟩).notified =
      [⟨[], "node-state-update"⟩] ∧
    (_commitChange ⟨[], []⟩ ⟨[], "node-state-update"⟩).history ≠
      [⟨[], "node-state-update"⟩] :=
  ⟨by decide, by decide, by decide⟩

/-- C8 (amended): history is append-only — every committed change carrying at
least one op is appended to the session history in commit order, the previous
history always remains a prefix (never truncated, reordered or mutated), and
exactly one DocumentChange per commit is delivered synchronously to the
listeners, in commit order. -/
theorem session_history_append_only (s : SessionState)
    (changes : List DocChange) :
    (commitAll s changes).history =
      s.history ++ changes.filter (fun c => c.ops.length > 0) ∧
    (commitAll s changes).notified = s.notified ++ changes := by
  induction changes generalizing s with
  | nil => simp [commitAll]
  | cons c cs ih =>
    have hstep : commitAll s (c :: cs) = commitAll (_commitChange s c) cs :=
      rfl
    obtain ⟨ih1, ih2⟩ := ih (_commitChange s c)
    rw [hstep]
    constructor
    · rw [ih1]
      by_cases hc : c.ops.length > 0
      · simp [_commitChange, _onDocumentChange, hc, List.filter_cons]
      · simp [_commitChange, _onDocumentChange, hc, List.filter_cons]
    · rw [ih2]
      by_cases hc : c.ops.length > 0
      · simp [_commitChange, _onDocumentChange, hc]
      · simp [_commitChange, _onDocumentChange, hc]

/-- C9: reentrancy is blocked with a fail-fast error: `_render` on a component
that is already rendering raises the "Component is rendering already." error
without invoking the rendering engine, and on a normal call the busy flag is
cleared again afterwards — also when the inner work throws, in which case the
inner error propagates. -/
theorem render_reentrancy_guard (engineResult : Except String Unit)
    (e : String) :
    _render true engineResult =
      ⟨some "Component is rendering already.", true, false⟩ ∧
    (_render false engineResult).isRenderingAfter = false ∧
    _render false (Except.error e) = ⟨some e, false, true⟩ ∧
    _render false (Except.ok ()) = ⟨none, false, true⟩ := by
  refine ⟨rfl, ?_, rfl, rfl⟩
  cases engineResult <;> rfl

/-- C5 witness: the repository's own fixture — two strong annotations
`[0, 2)` and `[4, 6)` fuse into a single `[0, 6)` annotation and the second
one is gone. -/
theorem fuseAnnos_spec_witness :
    ([(⟨"a2", "strong", 4, 6⟩ : FAnno)] ≠ []) ∧
    fuseAnnos [⟨"a1", "strong", 0, 2⟩, ⟨"a2", "strong", 4, 6⟩]
        [⟨"a1", "strong", 0, 2⟩, ⟨"a2", "strong", 4, 6⟩] =
      some [⟨"a1", "strong", 0, 6⟩] ∧
    (pickSurvivor ⟨"a1", "strong", 0, 2⟩
      [⟨"a2", "strong", 4, 6⟩]).startOffset ≤ 0 ∧
    6 ≤ latestEnd ⟨"a1", "strong", 0, 2⟩ [⟨"a2", "strong", 4, 6⟩] ∧
    ({ pickSurvivor ⟨"a1", "strong", 0, 2⟩ [⟨"a2", "strong", 4, 6⟩] with
        endOffset := latestEnd ⟨"a1", "strong", 0, 2⟩
          [⟨"a2", "strong", 4, 6⟩] }
      ∈ [(⟨"a1", "strong", 0, 6⟩ : FAnno)]) := by
  have h := fuseAnnos_spec
    [⟨"a1", "strong", 0, 2⟩, ⟨"a2", "strong", 4, 6⟩]
    ⟨"a1", "strong", 0, 2⟩ [⟨"a2", "strong", 4, 6⟩]
    [⟨"a1", "strong", 0, 6⟩]
    (by decide) (by decide) (by decide)
  exact ⟨by decide, by decide,
    h.1 ⟨"a1", "strong", 0, 2⟩ (by decide),
    h.2.2.1 ⟨"a2", "strong", 4, 6⟩ (by decide),
    h.2.2.2.2.1 ⟨"a1", "strong", 0, 2⟩ (by decide) (by decide)⟩

/-- C1 witness: the spec's own example — inserting one character at offset 3
(collapsed selection) shifts an annotation `[4, 6)` to `[5, 7)` (row II). -/
theorem insertText_repositioning_law_witness :
    (3 : Int) ≤ 3 ∧ (4 : Int) ≤ 6 ∧ (3 : Int) ≤ 4 ∧
    repositionAnno (decide ((3 : Int) ≠ 3)) 3 3 1 ⟨4, 6, false, false⟩ =
      some ⟨5, 7, false, false⟩ :=
  ⟨by norm_num, by norm_num, by norm_num,
    (insertText_repositioning_law 3 3 1 4 6 false false (by norm_num)
      (by norm_num)).2.1 (by norm_num)⟩

end Substance
